import Mathlib

/-!
Verification of the memory-store engine of `memory-system-v2`
(`src/memory_tool.py`, class `LocalFilesystemMemoryTool`).

The store is modelled as a flat finite map from virtual paths (lists of
name segments relative to the memory root) to entries (directory marker
or text file).  Machine strings are modelled as `String`/`List Char`
(Python `str` is a sequence of code points, as is Lean's `String.data`).
Python's exception classes are collapsed into the error taxonomy of the
specification (`ValueError` from `_validate_path` is `validationError`;
the `RuntimeError` messages raised by the operations are mapped by their
condition: "already exists" to `conflictError`, "not found"/"does not
exist" to `notFoundError`, "String not found"/"appears n times" to
`ambiguousMatchError`, "out of range" to `rangeError`; failures of the
underlying filesystem calls are `ioFailure`).

Each operation is a pure state transformer `FS → ... → FS × Except
MemError String`, mirroring the Python statement order: every raise
happens at the same point, relative to the mutation, as in the source.
Paths are validated by `validatePath`, a model of `_validate_path`:
`pathlib`'s construction collapses empty and "." segments, and
`Path.resolve` eliminates ".." lexically (the store contains no
symlinks), clamping at the filesystem root; the resolved path must have
the resolved memory root as a prefix.  Operations act on the resolved
location, which coincides with the raw `root / relative` path the code
hands to the filesystem in the absence of symlinks.
-/

/-- Error taxonomy of the specification (section 7). -/
inductive MemError where
  | validationError
  | notFoundError
  | conflictError
  | ambiguousMatchError
  | rangeError
  | ioFailure
deriving DecidableEq, Repr

/-- A filesystem entry: a directory node or a text leaf. -/
inductive Entry where
  | dir : Entry
  | file : String → Entry
deriving DecidableEq, Repr

/-- The store: a finite map from root-relative segment paths to entries.
The memory root itself is the entry with key `[]`. -/
abbrev FS := List (List String × Entry)

/-- Boolean list-prefix test (used both for path containment and for
substring matching at a position). -/
def isPre [DecidableEq α] : List α → List α → Bool
  | [], _ => true
  | _ :: _, [] => false
  | a :: as, b :: bs => if a = b then isPre as bs else false

/-- Characters Python `str.splitlines` treats as line boundaries. -/
def isLineBreak (c : Char) : Bool :=
  c.toNat = 10 || c.toNat = 13 || c.toNat = 11 || c.toNat = 12 ||
  c.toNat = 28 || c.toNat = 29 || c.toNat = 30 || c.toNat = 0x85 ||
  c.toNat = 0x2028 || c.toNat = 0x2029

/-- `str.splitlines(keepends=True)`: lines with their terminators,
"\r\n" counting as a single terminator. -/
def pySplitlinesK : List Char → List (List Char)
  | [] => []
  | '\r' :: '\n' :: t => ['\r', '\n'] :: pySplitlinesK t
  | c :: t =>
    if isLineBreak c then [c] :: pySplitlinesK t
    else
      match pySplitlinesK t with
      | [] => [[c]]
      | L :: Ls => (c :: L) :: Ls

/-- Remove one trailing line terminator (two characters for "\r\n"). -/
def stripEol (l : List Char) : List Char :=
  match l.getLast? with
  | none => l
  | some c =>
    if c = '\n' ∧ l.dropLast.getLast? = some '\r' then l.dropLast.dropLast
    else if isLineBreak c then l.dropLast
    else l

/-- `str.splitlines()` (no keepends). -/
def pySplitlines (l : List Char) : List (List Char) :=
  (pySplitlinesK l).map stripEol

/-- `"\n".join` on character lists. -/
def joinNL : List (List Char) → List Char
  | [] => []
  | [l] => l
  | l :: ls => l ++ '\n' :: joinNL ls

/-- `"\n".join` on strings. -/
def joinLines : List String → String
  | [] => ""
  | [s] => s
  | s :: ss => s ++ "\n" ++ joinLines ss

/-- Python `str.count` for a nonempty pattern `p :: ps`: number of
non-overlapping occurrences, scanning greedily from the left.  The scan
consumes at least one character per step, so it is written with a fuel
argument (instantiated with the haystack length) to keep the recursion
structural. -/
def cntF (p : Char) (ps : List Char) : Nat → List Char → Nat
  | _, [] => 0
  | 0, _ :: _ => 0
  | f + 1, c :: t =>
    if isPre (p :: ps) (c :: t) then cntF p ps f (t.drop ps.length) + 1
    else cntF p ps f t

/-- Python `str.count`: for the empty pattern it is `len + 1`. -/
def pyCount (pat hay : List Char) : Nat :=
  match pat with
  | [] => hay.length + 1
  | p :: ps => cntF p ps hay.length hay

/-- Python `str.replace` for a nonempty pattern: substitute each
non-overlapping occurrence, scanning greedily from the left (same fuel
scheme as the counting scan). -/
def replF (p : Char) (ps new : List Char) : Nat → List Char → List Char
  | _, [] => []
  | 0, l => l
  | f + 1, c :: t =>
    if isPre (p :: ps) (c :: t) then new ++ replF p ps new f (t.drop ps.length)
    else c :: replF p ps new f t

/-- Python `str.replace` with the empty pattern: the replacement is
inserted at every position. -/
def replEmpty (new : List Char) : List Char → List Char
  | [] => new
  | c :: t => new ++ c :: replEmpty new t

/-- Python `str.replace`. -/
def pyReplace (pat new hay : List Char) : List Char :=
  match pat with
  | [] => replEmpty new hay
  | p :: ps => replF p ps new hay.length hay

/-- Modelled from the spec (claim C2 wording): the number of positions
at which `pat` occurs as a substring of `hay`, counting overlapping
occurrences.  Compared against the source's non-overlapping `pyCount`. -/
def specOcc (pat hay : List Char) : Nat :=
  (List.range (hay.length + 1)).countP (fun i => isPre pat (hay.drop i))

/-- Split a character list on each slash, Python `str.split` with a
separator: the empty input yields one empty field. -/
def splitOnSlash : List Char → List (List Char)
  | [] => [[]]
  | c :: t =>
    if c = '/' then [] :: splitOnSlash t
    else
      match splitOnSlash t with
      | [] => [[c]]
      | s :: ss => (c :: s) :: ss

/-- One step of lexical path resolution: `pathlib` drops empty and "."
segments at construction; `Path.resolve` eliminates ".." against the
parent, clamping at the filesystem root. -/
def resolveStep (acc : List String) (s : String) : List String :=
  if s = "" ∨ s = "." then acc
  else if s = ".." then acc.dropLast
  else acc ++ [s]

/-- Resolve relative segments against the absolute segments of the
memory root. -/
def resolveFrom (base : List String) (segs : List String) : List String :=
  segs.foldl resolveStep base

/-- `path.startswith("/memories")`. -/
def isMemRooted (p : String) : Bool :=
  isPre ("/memories").data p.data

/-- Segments of the path after the mount prefix, after `lstrip("/")`. -/
def relSegs (p : String) : List String :=
  (splitOnSlash ((p.data.drop 9).dropWhile (fun c => c == '/'))).map
    (fun l => String.mk l)

/-- Model of `_validate_path`: reject paths without the "/memories"
prefix; resolve the remainder under the root (`base` is the absolute
segment list of the resolved memory root) and reject resolutions that
escape.  Returns the resolved path relative to the root. -/
def validatePath (base : List String) (p : String) : Except MemError (List String) :=
  if isMemRooted p then
    if isPre base (resolveFrom base (relSegs p)) then
      Except.ok ((resolveFrom base (relSegs p)).drop base.length)
    else Except.error MemError.validationError
  else Except.error MemError.validationError

/-- First-match lookup of a path in the store. -/
def lookupFS : FS → List String → Option Entry
  | [], _ => none
  | (q, e) :: t, p => if q = p then some e else lookupFS t p

/-- One step of `mkdir(exist_ok=True)` on a single path: a directory in
the way is fine, a file in the way is a failure, otherwise create. -/
def ensureDir (fs : FS) (q : List String) : Option FS :=
  match lookupFS fs q with
  | some Entry.dir => some fs
  | some (Entry.file _) => none
  | none => some ((q, Entry.dir) :: fs)

/-- `mkdir(parents=True, exist_ok=True)` along a chain of paths. -/
def mkdirsAux : FS → List (List String) → Option FS
  | fs, [] => some fs
  | fs, q :: qs =>
    match ensureDir fs q with
    | none => none
    | some fs2 => mkdirsAux fs2 qs

/-- `p.mkdir(parents=True, exist_ok=True)`: ensure every prefix of `p`
(including the memory root and `p` itself) exists as a directory. -/
def mkdirs (fs : FS) (p : List String) : Option FS :=
  mkdirsAux fs p.inits

/-- `write_text` on an existing leaf: replace its content. -/
def setContent (fs : FS) (segs : List String) (c : String) : FS :=
  fs.map (fun qe => if qe.1 = segs then (qe.1, Entry.file c) else qe)

/-- Immediate children of a directory path: pairs of name and entry. -/
def childNames (fs : FS) (p : List String) : List (String × Entry) :=
  fs.filterMap (fun qe =>
    if qe.1.dropLast = p ∧ qe.1 ≠ [] then some (qe.1.getLastD "", qe.2) else none)

/-- Lexicographic code-point comparison of character lists: how Python
compares the strings underlying `sorted(path objects)`. -/
def chLe : List Char → List Char → Bool
  | [], _ => true
  | _ :: _, [] => false
  | a :: as, b :: bs =>
    if a.toNat < b.toNat then true
    else if a.toNat = b.toNat then chLe as bs
    else false

/-- Insert into a list sorted by name (stable insertion sort step). -/
def insertSorted (x : String × Entry) : List (String × Entry) → List (String × Entry)
  | [] => [x]
  | y :: t => if chLe x.1.data y.1.data then x :: y :: t else y :: insertSorted x t

/-- `sorted(...)` over directory entries, by name. -/
def sortByName (l : List (String × Entry)) : List (String × Entry) :=
  l.foldr insertSorted []

/-- `name.startswith(".")` on the character level. -/
def startsDot (s : String) : Bool := isPre (".").data s.data

/-- Sorted children with dot-entries skipped, as the view loop sees them. -/
def sortedKids (fs : FS) (p : List String) : List (String × Entry) :=
  (sortByName (childNames fs p)).filter (fun x => !(startsDot x.1))

/-- The items of a directory listing: names only, directories suffixed
with a slash. -/
def dirListing (fs : FS) (p : List String) : List String :=
  (sortedKids fs p).map (fun x =>
    match x.2 with
    | Entry.dir => x.1 ++ "/"
    | Entry.file _ => x.1)

/-- The string built by `view` in the directory case. -/
def formatListing (path : String) (items : List String) : String :=
  "Directory: " ++ path ++ "\n" ++ joinLines (items.map (fun i => "- " ++ i))

/-- Python slice `l[lo:hi]` for integer bounds. -/
def pySlice (l : List (List Char)) (a b : Int) : List (List Char) :=
  let n : Int := l.length
  let lo := (if a < 0 then max 0 (a + n) else min a n).toNat
  let hi := (if b < 0 then max 0 (b + n) else min b n).toNat
  (l.take hi).drop lo

/-- The string built by `view` in the file case: split into lines, apply
the optional range (`end = -1` meaning end of file, start floored at
line 1), and join with newlines. -/
def renderFile (c : String) (r : Option (Int × Int)) : String :=
  let lines := pySplitlines c.data
  let sel :=
    match r with
    | none => lines
    | some (a, b) =>
      pySlice lines (max 1 a - 1) (if b = -1 then (lines.length : Int) else b)
  String.mk (joinNL sel)

/-- `view`: directory listing or file content with optional line range. -/
def viewOp (base : List String) (fs : FS) (path : String) (r : Option (Int × Int)) :
    FS × Except MemError String :=
  match validatePath base path with
  | Except.error e => (fs, Except.error e)
  | Except.ok segs =>
    match lookupFS fs segs with
    | some Entry.dir => (fs, Except.ok (formatListing path (dirListing fs segs)))
    | some (Entry.file c) => (fs, Except.ok (renderFile c r))
    | none => (fs, Except.error MemError.notFoundError)

/-- `create`: fail on any existing entry, make parent directories, write. -/
def createOp (base : List String) (fs : FS) (path : String) (text : String) :
    FS × Except MemError String :=
  match validatePath base path with
  | Except.error e => (fs, Except.error e)
  | Except.ok segs =>
    match lookupFS fs segs with
    | some _ => (fs, Except.error MemError.conflictError)
    | none =>
      match mkdirs fs segs.dropLast with
      | none => (fs, Except.error MemError.ioFailure)
      | some fs2 =>
        ((segs, Entry.file text) :: fs2, Except.ok ("Successfully created " ++ path))

/-- Python `endswith` driven normalization in `insert`: append a newline
when the inserted text lacks one. -/
def normalizeInsertText (t : List Char) : List Char :=
  if t.getLast? = some '\n' then t else t ++ ['\n']

/-- `str_replace`: require an existing leaf and a uniquely occurring
(non-overlapping count) pattern, then substitute. -/
def strReplaceOp (base : List String) (fs : FS) (path old new : String) :
    FS × Except MemError String :=
  match validatePath base path with
  | Except.error e => (fs, Except.error e)
  | Except.ok segs =>
    match lookupFS fs segs with
    | some (Entry.file c) =>
      if pyCount old.data c.data = 0 then (fs, Except.error MemError.ambiguousMatchError)
      else if pyCount old.data c.data > 1 then (fs, Except.error MemError.ambiguousMatchError)
      else
        (setContent fs segs (String.mk (pyReplace old.data new.data c.data)),
         Except.ok ("Successfully replaced string in " ++ path))
    | _ => (fs, Except.error MemError.notFoundError)

/-- `insert`: splice one (newline-terminated) text into the keepends
line decomposition at a 1-indexed position. -/
def insertOp (base : List String) (fs : FS) (path : String) (line : Int) (text : String) :
    FS × Except MemError String :=
  match validatePath base path with
  | Except.error e => (fs, Except.error e)
  | Except.ok segs =>
    match lookupFS fs segs with
    | some (Entry.file c) =>
      if line - 1 < 0 ∨ ((pySplitlinesK c.data).length : Int) < line - 1 then
        (fs, Except.error MemError.rangeError)
      else
        (setContent fs segs (String.mk
          (((pySplitlinesK c.data).take (line - 1).toNat).flatten ++
            normalizeInsertText text.data ++
            ((pySplitlinesK c.data).drop (line - 1).toNat).flatten)),
         Except.ok ("Successfully inserted line in " ++ path))
    | _ => (fs, Except.error MemError.notFoundError)

/-- `delete`: remove a leaf, or a directory with its entire subtree. -/
def deleteOp (base : List String) (fs : FS) (path : String) :
    FS × Except MemError String :=
  match validatePath base path with
  | Except.error e => (fs, Except.error e)
  | Except.ok segs =>
    match lookupFS fs segs with
    | none => (fs, Except.error MemError.notFoundError)
    | some Entry.dir =>
      (fs.filter (fun qe => !(isPre segs qe.1)),
       Except.ok ("Successfully deleted directory " ++ path))
    | some (Entry.file _) =>
      (fs.filter (fun qe => if qe.1 = segs then false else true),
       Except.ok ("Successfully deleted " ++ path))

/-- `os.rename`: relocate the source subtree, every path below the old
prefix getting the new prefix. -/
def moveTree (o n : List String) (fs : FS) : FS :=
  fs.map (fun qe => if isPre o qe.1 then (n ++ qe.1.drop o.length, qe.2) else qe)

/-- `rename`: validate both paths, require the source present and the
destination absent, make the destination's parents, then move the whole
subtree; `os.rename` of a directory into its own subtree fails. -/
def renameOp (base : List String) (fs : FS) (oldPath newPath : String) :
    FS × Except MemError String :=
  match validatePath base oldPath with
  | Except.error e => (fs, Except.error e)
  | Except.ok o =>
    match validatePath base newPath with
    | Except.error e => (fs, Except.error e)
    | Except.ok n =>
      match lookupFS fs o with
      | none => (fs, Except.error MemError.notFoundError)
      | some _ =>
        match lookupFS fs n with
        | some _ => (fs, Except.error MemError.conflictError)
        | none =>
          match mkdirs fs n.dropLast with
          | none => (fs, Except.error MemError.ioFailure)
          | some fs2 =>
            if isPre o n then (fs2, Except.error MemError.ioFailure)
            else
              (moveTree o n fs2,
               Except.ok ("Successfully renamed " ++ oldPath ++ " to " ++ newPath))

/-- `clear_all_memory`: when the root exists, remove it recursively and
recreate it empty; every internal failure of the removal (injected here
through `rmFail`, and a root that is not a directory) is caught and
reported as a textual message instead of an exception. -/
def clearAllMemory (fs : FS) (rmFail : Bool) : FS × String :=
  match lookupFS fs [] with
  | none => (fs, "All memories have been cleared")
  | some (Entry.file _) => (fs, "Error clearing memories")
  | some Entry.dir =>
    if rmFail then (fs, "Error clearing memories")
    else ([([], Entry.dir)], "All memories have been cleared")

theorem isPre_self [DecidableEq α] (l : List α) : isPre l l = true := by
  induction l with
  | nil => rfl
  | cons a as ih => simp [isPre, ih]

theorem isPre_append [DecidableEq α] (l r : List α) : isPre l (l ++ r) = true := by
  induction l with
  | nil => rfl
  | cons a as ih => simp [isPre, ih]

theorem isPre_drop [DecidableEq α] :
    ∀ (a b : List α), isPre a b = true → b = a ++ b.drop a.length := by
  intro a
  induction a with
  | nil => intro b _; simp
  | cons x xs ih =>
    intro b h
    cases b with
    | nil => simp [isPre] at h
    | cons y ys =>
      simp only [isPre] at h
      split at h
      · next hxy =>
        subst hxy
        simpa using ih ys h
      · exact absurd h (by simp)

theorem isPre_length [DecidableEq α] :
    ∀ (a b : List α), isPre a b = true → a.length ≤ b.length := by
  intro a
  induction a with
  | nil => intro b _; simp
  | cons x xs ih =>
    intro b h
    cases b with
    | nil => simp [isPre] at h
    | cons y ys =>
      simp only [isPre] at h
      split at h
      · simpa using ih ys h
      · exact absurd h (by simp)

theorem pySplitlinesK_crlf (t : List Char) :
    pySplitlinesK ('\r' :: '\n' :: t) = ['\r', '\n'] :: pySplitlinesK t := rfl

theorem pySplitlinesK_cr (t : List Char) (h : t.head? ≠ some '\n') :
    pySplitlinesK ('\r' :: t) = ['\r'] :: pySplitlinesK t := by
  rw [pySplitlinesK.eq_def]
  split
  · simp_all
  · simp_all
  · rename_i hne heq
    rw [List.cons.injEq] at heq
    obtain ⟨h1, h2⟩ := heq
    subst h2
    rw [if_pos (by rw [← h1]; decide)]
    rw [← h1]

theorem pySplitlinesK_brk {c : Char} (t : List Char)
    (hb : isLineBreak c = true) (hc : c ≠ '\r') :
    pySplitlinesK (c :: t) = [c] :: pySplitlinesK t := by
  rw [pySplitlinesK.eq_def]
  split
  · simp_all
  · rename_i heq
    rw [List.cons.injEq] at heq
    exact absurd heq.1 hc
  · rename_i hne heq
    rw [List.cons.injEq] at heq
    obtain ⟨h1, h2⟩ := heq
    subst h1; subst h2
    rw [if_pos hb]

theorem pySplitlinesK_chr {c : Char} (t : List Char) (hb : isLineBreak c = false) :
    pySplitlinesK (c :: t) =
      match pySplitlinesK t with
      | [] => [[c]]
      | L :: Ls => (c :: L) :: Ls := by
  rw [pySplitlinesK.eq_def]
  split
  · simp_all
  · rename_i heq
    rw [List.cons.injEq] at heq
    rw [heq.1] at hb
    exact absurd hb (by decide)
  · rename_i hne heq
    rw [List.cons.injEq] at heq
    obtain ⟨h1, h2⟩ := heq
    subst h1; subst h2
    rw [if_neg (by simp [hb])]
theorem pySplitlinesK_ne_nil : ∀ (l : List Char), l ≠ [] → pySplitlinesK l ≠ [] := by
  intro l
  induction l using pySplitlinesK.induct with
  | case1 => intro h; exact absurd rfl h
  | case2 t ih => intro _; rw [pySplitlinesK_crlf]; simp
  | case3 c t hne hb ih =>
    intro _
    by_cases hc : c = '\r'
    · subst hc
      rw [pySplitlinesK_cr t (by
        intro hh
        cases t with
        | nil => simp at hh
        | cons x xs =>
          simp at hh
          exact hne xs rfl (by rw [hh]))]
      simp
    · rw [pySplitlinesK_brk t hb hc]; simp
  | case4 c t hne hb hK ih =>
    intro _
    rw [pySplitlinesK_chr t (by simpa using hb), hK]
    simp
  | case5 c t hne hb L Ls hK ih =>
    intro _
    rw [pySplitlinesK_chr t (by simpa using hb), hK]
    simp

theorem flatten_pySplitlinesK : ∀ (l : List Char), (pySplitlinesK l).flatten = l := by
  intro l
  induction l using pySplitlinesK.induct with
  | case1 => rfl
  | case2 t ih => rw [pySplitlinesK_crlf]; simp [ih]
  | case3 c t hne hb ih =>
    by_cases hc : c = '\r'
    · subst hc
      rw [pySplitlinesK_cr t (by
        intro hh
        cases t with
        | nil => simp at hh
        | cons x xs =>
          simp at hh
          exact hne xs rfl (by rw [hh]))]
      simp [ih]
    · rw [pySplitlinesK_brk t hb hc]; simp [ih]
  | case4 c t hne hb hK ih =>
    rw [pySplitlinesK_chr t (by simpa using hb), hK]
    have ht : t = [] := by
      by_contra hne2
      exact pySplitlinesK_ne_nil t hne2 hK
    subst ht
    rfl
  | case5 c t hne hb L Ls hK ih =>
    rw [pySplitlinesK_chr t (by simpa using hb), hK]
    rw [hK] at ih
    simp only [List.flatten_cons] at ih ⊢
    rw [List.cons_append, ih]
theorem pySplitlinesK_nobreak :
    ∀ (l : List Char), (∀ c ∈ l, isLineBreak c = false) → l ≠ [] →
      pySplitlinesK l = [l] := by
  intro l
  induction l with
  | nil => intro _ h; exact absurd rfl h
  | cons c t ih =>
    intro h _
    rw [pySplitlinesK_chr t (h c (by simp))]
    cases t with
    | nil => rfl
    | cons x xs =>
      rw [ih (fun d hd => h d (by simp [hd])) (by simp)]

theorem pySplitlinesK_line :
    ∀ (t r : List Char), (∀ c ∈ t, isLineBreak c = false) →
      pySplitlinesK (t ++ '\n' :: r) = (t ++ ['\n']) :: pySplitlinesK r := by
  intro t
  induction t with
  | nil =>
    intro r _
    simp only [List.nil_append]
    rw [pySplitlinesK_brk r (by decide) (by decide)]
  | cons c ts ih =>
    intro r h
    simp only [List.cons_append]
    rw [pySplitlinesK_chr (ts ++ '\n' :: r) (h c (by simp))]
    rw [ih r (fun d hd => h d (by simp [hd]))]

theorem pySplitlinesK_append :
    ∀ (l r : List Char), (l = [] ∨ l.getLast? = some '\n') →
      pySplitlinesK (l ++ r) = pySplitlinesK l ++ pySplitlinesK r := by
  intro l
  induction l using pySplitlinesK.induct with
  | case1 => intro r _; rfl
  | case2 t ih =>
    intro r h
    rcases h with h | h
    · simp at h
    · have ht : t = [] ∨ t.getLast? = some '\n' := by
        cases t with
        | nil => left; rfl
        | cons x xs => right; simpa using h
      simp only [List.cons_append]
      rw [pySplitlinesK_crlf, pySplitlinesK_crlf, ih r ht]
      rfl
  | case3 c t hne hb ih =>
    intro r h
    rcases h with h | h
    · simp at h
    · by_cases hc : c = '\r'
      · subst hc
        cases t with
        | nil => simp at h
        | cons x xs =>
          have hx : x ≠ '\n' := by
            intro hh; subst hh; exact hne xs rfl rfl
          have hh : (x :: xs).getLast? = some '\n' := by simpa using h
          show pySplitlinesK ('\r' :: (x :: xs ++ r)) =
            pySplitlinesK ('\r' :: x :: xs) ++ pySplitlinesK r
          rw [pySplitlinesK_cr (x :: xs ++ r) (by simp [hx]),
              pySplitlinesK_cr (x :: xs) (by simp [hx]),
              ih r (Or.inr hh)]
          rfl
      · cases t with
        | nil =>
          have hcn : c = '\n' := by simpa using h
          subst hcn
          show pySplitlinesK ('\n' :: r) = pySplitlinesK ['\n'] ++ pySplitlinesK r
          rw [pySplitlinesK_brk r hb hc]
          rfl
        | cons x xs =>
          have hh : (x :: xs).getLast? = some '\n' := by simpa using h
          show pySplitlinesK (c :: (x :: xs ++ r)) =
            pySplitlinesK (c :: x :: xs) ++ pySplitlinesK r
          rw [pySplitlinesK_brk (x :: xs ++ r) hb hc,
              pySplitlinesK_brk (x :: xs) hb hc,
              ih r (Or.inr hh)]
          rfl
  | case4 c t hne hb hK =>
    intro r h
    have ht : t = [] := by
      by_contra hne2
      exact pySplitlinesK_ne_nil t hne2 hK
    subst ht
    rcases h with h | h
    · simp at h
    · have : c = '\n' := by simpa using h
      subst this
      simp [isLineBreak] at hb
  | case5 c t hne hb L Ls hK ih =>
    intro r h
    have ht : t ≠ [] := by
      intro hh; subst hh; simp [pySplitlinesK] at hK
    rcases h with h | h
    · simp at h
    · have hh : t.getLast? = some '\n' := by
        cases t with
        | nil => exact absurd rfl ht
        | cons x xs => simpa using h
      simp only [List.cons_append]
      rw [pySplitlinesK_chr (t ++ r) (by simpa using hb),
          pySplitlinesK_chr t (by simpa using hb),
          ih r (Or.inr hh), hK]
      rfl
/-- Text whose characters include no line boundary at all. -/
def noBreak (l : List Char) : Bool := l.all (fun c => !isLineBreak c)

/-- Text whose only line boundaries are plain "\n". -/
def onlyNL (l : List Char) : Bool := l.all (fun c => !isLineBreak c || c == '\n')

theorem noBreak_iff (l : List Char) :
    noBreak l = true ↔ ∀ c ∈ l, isLineBreak c = false := by
  simp [noBreak, List.all_eq_true]

theorem onlyNL_iff (l : List Char) :
    onlyNL l = true ↔ ∀ c ∈ l, isLineBreak c = true → c = '\n' := by
  simp only [onlyNL, List.all_eq_true, Bool.or_eq_true, Bool.not_eq_true', beq_iff_eq]
  constructor
  · intro h c hc hb
    rcases h c hc with h1 | h1
    · rw [hb] at h1; cases h1
    · exact h1
  · intro h c hc
    by_cases hb : isLineBreak c = true
    · right; exact h c hc hb
    · left; simpa using hb

theorem stripEol_last_nobreak (l : List Char) (y : Char)
    (hy : l.getLast? = some y) (hb : isLineBreak y = false) : stripEol l = l := by
  have he : stripEol l =
      if y = '\n' ∧ l.dropLast.getLast? = some '\r' then l.dropLast.dropLast
      else if isLineBreak y = true then l.dropLast else l := by
    rw [stripEol, hy]
  rw [he]
  rw [if_neg (by
    rintro ⟨h1, h2⟩
    subst h1
    simp [isLineBreak] at hb)]
  rw [if_neg (by simp [hb])]

theorem stripEol_concat_nl (t : List Char) (h : ∀ c ∈ t, isLineBreak c = false) :
    stripEol (t ++ ['\n']) = t := by
  have he : stripEol (t ++ ['\n']) =
      if ('\n' : Char) = '\n' ∧ (t ++ ['\n']).dropLast.getLast? = some '\r' then
        (t ++ ['\n']).dropLast.dropLast
      else if isLineBreak '\n' = true then (t ++ ['\n']).dropLast else t ++ ['\n'] := by
    rw [stripEol, List.getLast?_concat]
  rw [he]
  rw [if_neg (by
    rintro ⟨h1, h2⟩
    rw [List.dropLast_concat] at h2
    have hm : '\r' ∈ t := List.mem_of_mem_getLast? h2
    have := h _ hm
    simp [isLineBreak] at this)]
  rw [if_pos (by decide), List.dropLast_concat]

theorem ps_line (t r : List Char) (h : ∀ c ∈ t, isLineBreak c = false) :
    pySplitlines (t ++ '\n' :: r) = t :: pySplitlines r := by
  rw [pySplitlines, pySplitlinesK_line t r h]
  simp only [List.map_cons]
  rw [stripEol_concat_nl t h]
  rfl
theorem ps_nil_iff (l : List Char) : pySplitlines l = [] ↔ l = [] := by
  constructor
  · intro h
    by_contra hne
    have := pySplitlinesK_ne_nil l hne
    rw [pySplitlines] at h
    simp at h
    exact this h
  · intro h; subst h; rfl

theorem ps_nobreak (l : List Char) (h : ∀ c ∈ l, isLineBreak c = false) (hne : l ≠ []) :
    pySplitlines l = [l] := by
  rw [pySplitlines, pySplitlinesK_nobreak l h hne]
  simp only [List.map_cons, List.map_nil]
  obtain ⟨y, hy⟩ : ∃ y, l.getLast? = some y := by
    cases l with
    | nil => exact absurd rfl hne
    | cons x xs => simp [List.getLast?_eq_getLast]
  rw [stripEol_last_nobreak l y hy (h y (List.mem_of_mem_getLast? hy))]

theorem joinNL_pair (a b : List Char) (t : List (List Char)) :
    joinNL (a :: b :: t) = a ++ '\n' :: joinNL (b :: t) := rfl

/-- Any text whose only breaks are "\n" is either break-free or splits at
its first newline. -/
theorem firstNL :
    ∀ (l : List Char), onlyNL l = true →
      (∀ c ∈ l, isLineBreak c = false) ∨
      ∃ t r, l = t ++ '\n' :: r ∧ (∀ c ∈ t, isLineBreak c = false) ∧ onlyNL r = true := by
  intro l
  induction l with
  | nil => intro _; left; simp
  | cons c t ih =>
    intro h
    have hh := (onlyNL_iff _).1 h
    have hht : onlyNL t = true := by
      rw [onlyNL_iff]
      intro d hd hb
      exact hh d (by simp [hd]) hb
    by_cases hb : isLineBreak c = true
    · right
      refine ⟨[], t, ?_, by simp, hht⟩
      rw [hh c (by simp) hb]
      rfl
    · rcases ih hht with h1 | ⟨t1, r, hr, ht1, hr2⟩
      · left
        intro d hd
        rcases List.mem_cons.1 hd with h2 | h2
        · subst h2; simpa using hb
        · exact h1 d h2
      · right
        refine ⟨c :: t1, r, by rw [hr]; rfl, ?_, hr2⟩
        intro d hd
        rcases List.mem_cons.1 hd with h2 | h2
        · subst h2; simpa using hb
        · exact ht1 d h2

/-- Joining the Python line split with newlines gives back the text with
one trailing newline removed, provided "\n" is its only break character. -/
theorem joinNL_pySplitlines :
    ∀ (n : Nat) (l : List Char), l.length ≤ n → onlyNL l = true →
      joinNL (pySplitlines l) =
        (if l.getLast? = some '\n' then l.dropLast else l) := by
  intro n
  induction n with
  | zero =>
    intro l hlen _
    have : l = [] := by
      cases l with
      | nil => rfl
      | cons x xs => simp at hlen
    subst this
    rfl
  | succ n ih =>
    intro l hlen h
    rcases firstNL l h with hnb | ⟨t, r, rfl, ht, hr⟩
    · cases hl : l with
      | nil => rfl
      | cons x xs =>
        subst hl
        rw [ps_nobreak _ hnb (by simp)]
        obtain ⟨y, hy⟩ : ∃ y, (x :: xs).getLast? = some y := by
          simp [List.getLast?_eq_getLast]
        rw [hy]
        rw [if_neg (by
          intro hcon
          have hyn : y = '\n' := by simpa using hcon
          subst hyn
          have := hnb _ (List.mem_of_mem_getLast? hy)
          simp [isLineBreak] at this)]
        rfl
    · rw [ps_line t r ht]
      cases hr0 : r with
      | nil =>
        subst hr0
        have : pySplitlines [] = [] := rfl
        rw [this]
        show t = if (t ++ ['\n']).getLast? = some '\n' then (t ++ ['\n']).dropLast
          else t ++ ['\n']
        rw [List.getLast?_concat, if_pos rfl, List.dropLast_concat]
      | cons x xs =>
        subst hr0
        have hlen2 : (x :: xs).length ≤ n := by
          simp only [List.length_append, List.length_cons] at hlen ⊢
          omega
        have hps : pySplitlines (x :: xs) ≠ [] := by
          rw [Ne, ps_nil_iff]; simp
        obtain ⟨L, Ls, hLs⟩ : ∃ L Ls, pySplitlines (x :: xs) = L :: Ls := by
          cases hq : pySplitlines (x :: xs) with
          | nil => exact absurd hq hps
          | cons a b => exact ⟨a, b, rfl⟩
        rw [hLs, joinNL_pair, ← hLs, ih (x :: xs) hlen2 hr]
        rw [List.getLast?_append]
        have hxl : (x :: xs).getLast? = ('\n' :: x :: xs).getLast? := by
          simp [List.getLast?_cons_cons]
        rw [← hxl]
        obtain ⟨y, hy⟩ : ∃ y, (x :: xs).getLast? = some y := by
          simp [List.getLast?_eq_getLast]
        rw [hy]
        simp only [Option.or_some]
        by_cases hyn : y = '\n'
        · subst hyn
          rw [if_pos rfl, if_pos rfl]
          rw [List.dropLast_append_of_ne_nil _ (by simp)]
          rw [show ('\n' :: x :: xs).dropLast = '\n' :: (x :: xs).dropLast from
            List.dropLast_cons_of_ne_nil (by simp)]
        · rw [if_neg (by simpa using hyn), if_neg (by simpa using hyn)]
theorem cntF_zero_replF (p : Char) (ps new : List Char) :
    ∀ (f : Nat) (l : List Char), l.length ≤ f → cntF p ps f l = 0 →
      replF p ps new f l = l := by
  intro f
  induction f with
  | zero =>
    intro l hl _
    cases l with
    | nil => rfl
    | cons c t => simp at hl
  | succ f ih =>
    intro l hl h
    cases l with
    | nil => rfl
    | cons c t =>
      simp only [cntF] at h
      simp only [replF]
      by_cases hm : isPre (p :: ps) (c :: t) = true
      · rw [if_pos hm] at h; simp at h
      · rw [if_neg hm] at h
        rw [if_neg hm]
        rw [ih t (by simp at hl; omega) h]

theorem cntF_one_replF (p : Char) (ps new : List Char) :
    ∀ (f : Nat) (l : List Char), l.length ≤ f → cntF p ps f l = 1 →
      ∃ a b, l = a ++ (p :: ps) ++ b ∧ replF p ps new f l = a ++ new ++ b := by
  intro f
  induction f with
  | zero =>
    intro l hl h
    cases l with
    | nil => simp [cntF] at h
    | cons c t => simp at hl
  | succ f ih =>
    intro l hl h
    cases l with
    | nil => simp [cntF] at h
    | cons c t =>
      simp only [cntF] at h
      simp only [replF]
      by_cases hm : isPre (p :: ps) (c :: t) = true
      · rw [if_pos hm] at h
        rw [if_pos hm]
        have h0 : cntF p ps f (t.drop ps.length) = 0 := by omega
        have hlen : (t.drop ps.length).length ≤ f := by
          simp only [List.length_drop]
          simp only [List.length_cons] at hl
          omega
        refine ⟨[], t.drop ps.length, ?_, ?_⟩
        · have := isPre_drop (p :: ps) (c :: t) hm
          simpa using this
        · rw [cntF_zero_replF p ps new f _ hlen h0]
          rfl
      · rw [if_neg hm] at h
        rw [if_neg hm]
        obtain ⟨a, b, h1, h2⟩ := ih t (by simp at hl; omega) h
        refine ⟨c :: a, b, by rw [List.cons_append, List.cons_append, ← h1], ?_⟩
        rw [h2]
        rfl

theorem pyCount_one_repl (pat new l : List Char) (h : pyCount pat l = 1) :
    ∃ a b, l = a ++ pat ++ b ∧ pyReplace pat new l = a ++ new ++ b := by
  cases pat with
  | nil =>
    have hl : l = [] := by simpa [pyCount] using h
    subst hl
    exact ⟨[], [], rfl, by simp [pyReplace, replEmpty]⟩
  | cons p ps =>
    exact cntF_one_replF p ps new l.length l le_rfl h

theorem lookupFS_cons (q : List String) (e : Entry) (t : FS) (p : List String) :
    lookupFS ((q, e) :: t) p = if q = p then some e else lookupFS t p := rfl

theorem mkdirsAux_pres_some :
    ∀ (qs : List (List String)) (fs fs2 : FS) (k : List String) (e : Entry),
      mkdirsAux fs qs = some fs2 → lookupFS fs k = some e → lookupFS fs2 k = some e := by
  intro qs
  induction qs with
  | nil =>
    intro fs fs2 k e hm hl
    simp only [mkdirsAux] at hm
    obtain rfl := Option.some.inj hm
    exact hl
  | cons q qs ih =>
    intro fs fs2 k e hm hl
    simp only [mkdirsAux, ensureDir] at hm
    cases hq : lookupFS fs q with
    | none =>
      rw [hq] at hm
      refine ih _ _ _ _ hm ?_
      rw [lookupFS_cons, if_neg ?_]
      · exact hl
      · intro he; subst he; rw [hq] at hl; cases hl
    | some ent =>
      cases ent with
      | dir => rw [hq] at hm; exact ih _ _ _ _ hm hl
      | file c => rw [hq] at hm; cases hm

theorem mkdirsAux_pres_none :
    ∀ (qs : List (List String)) (fs fs2 : FS) (k : List String),
      mkdirsAux fs qs = some fs2 → lookupFS fs k = none → (∀ q ∈ qs, q ≠ k) →
        lookupFS fs2 k = none := by
  intro qs
  induction qs with
  | nil =>
    intro fs fs2 k hm hl _
    simp only [mkdirsAux] at hm
    obtain rfl := Option.some.inj hm
    exact hl
  | cons q qs ih =>
    intro fs fs2 k hm hl hq
    simp only [mkdirsAux, ensureDir] at hm
    cases hqq : lookupFS fs q with
    | none =>
      rw [hqq] at hm
      refine ih _ _ _ hm ?_ (fun r hr => hq r (by simp [hr]))
      rw [lookupFS_cons, if_neg (hq q (by simp))]
      exact hl
    | some ent =>
      cases ent with
      | dir => rw [hqq] at hm; exact ih _ _ _ hm hl (fun r hr => hq r (by simp [hr]))
      | file c => rw [hqq] at hm; cases hm

theorem inits_ne_self (n : List String) (hne : n ≠ []) :
    ∀ q ∈ (n.dropLast).inits, q ≠ n := by
  intro q hq he
  have hp : q <+: n.dropLast := (List.mem_inits q n.dropLast).1 hq
  have h1 : q.length ≤ n.dropLast.length := hp.length_le
  have h2 : n.dropLast.length < n.length := by
    rw [List.length_dropLast]
    cases n with
    | nil => exact absurd rfl hne
    | cons x xs => simp
  subst he
  omega

theorem lookup_move_new (o n : List String) (e : Entry) :
    ∀ (fs : FS), lookupFS fs n = none → lookupFS fs o = some e →
      lookupFS (moveTree o n fs) n = some e := by
  unfold moveTree
  intro fs
  induction fs with
  | nil => intro _ ho; cases ho
  | cons qe t ih =>
    intro hn ho
    obtain ⟨q, e'⟩ := qe
    rw [lookupFS_cons] at hn ho
    have hqn : q ≠ n := by
      intro he; rw [if_pos he] at hn; cases hn
    rw [if_neg hqn] at hn
    by_cases hqo : q = o
    · subst hqo
      rw [if_pos rfl] at ho
      simp only [List.map_cons, isPre_self, if_pos]
      rw [List.drop_length, List.append_nil, lookupFS_cons, if_pos rfl]
      exact ho
    · rw [if_neg hqo] at ho
      simp only [List.map_cons]
      by_cases him : isPre o q = true
      · rw [if_pos him, lookupFS_cons, if_neg ?_]
        · exact ih hn ho
        · intro he
          have hd : q.drop o.length = [] := by
            exact List.append_right_eq_self.1 he
          have := isPre_drop o q him
          rw [hd, List.append_nil] at this
          exact hqo this
      · rw [if_neg (by simpa using him), lookupFS_cons, if_neg hqn]
        exact ih hn ho

theorem lookup_move_old (o n : List String) (hno : isPre n o = false) :
    ∀ (fs : FS), lookupFS (moveTree o n fs) o = none := by
  unfold moveTree
  intro fs
  induction fs with
  | nil => rfl
  | cons qe t ih =>
    obtain ⟨q, e'⟩ := qe
    simp only [List.map_cons]
    by_cases him : isPre o q = true
    · rw [if_pos him, lookupFS_cons, if_neg ?_]
      · exact ih
      · intro he
        rw [← he] at hno
        rw [isPre_append] at hno
        cases hno
    · rw [if_neg (by simpa using him), lookupFS_cons, if_neg ?_]
      · exact ih
      · intro he; subst he; rw [isPre_self] at him; exact him rfl
theorem chLe_total : ∀ (a b : List Char), chLe a b = true ∨ chLe b a = true := by
  intro a
  induction a with
  | nil => intro b; left; rfl
  | cons x xs ih =>
    intro b
    cases b with
    | nil => right; rfl
    | cons y ys =>
      simp only [chLe]
      by_cases h1 : x.toNat < y.toNat
      · left; rw [if_pos h1]
      · by_cases h2 : x.toNat = y.toNat
        · rw [if_neg h1, if_pos h2, if_neg (by omega), if_pos (by omega)]
          exact ih ys
        · right; rw [if_pos (by omega)]

theorem chLe_trans :
    ∀ (a b c : List Char), chLe a b = true → chLe b c = true → chLe a c = true := by
  intro a
  induction a with
  | nil => intro b c _ _; rfl
  | cons x xs ih =>
    intro b c hab hbc
    cases b with
    | nil => simp [chLe] at hab
    | cons y ys =>
      cases c with
      | nil => simp [chLe] at hbc
      | cons z zs =>
        simp only [chLe] at hab hbc ⊢
        by_cases h1 : x.toNat < y.toNat
        · by_cases h2 : y.toNat < z.toNat
          · rw [if_pos (by omega)]
          · by_cases h3 : y.toNat = z.toNat
            · rw [if_pos (by omega)]
            · rw [if_neg h2, if_neg h3] at hbc; cases hbc
        · by_cases h4 : x.toNat = y.toNat
          · rw [if_neg h1, if_pos h4] at hab
            by_cases h2 : y.toNat < z.toNat
            · rw [if_pos (by omega)]
            · by_cases h3 : y.toNat = z.toNat
              · rw [if_neg h2, if_pos h3] at hbc
                rw [if_neg (by omega), if_pos (by omega)]
                exact ih ys zs hab hbc
              · rw [if_neg h2, if_neg h3] at hbc; cases hbc
          · rw [if_neg h1, if_neg h4] at hab; cases hab

theorem insertSorted_mem (x a : String × Entry) :
    ∀ (l : List (String × Entry)), a ∈ insertSorted x l ↔ a = x ∨ a ∈ l := by
  intro l
  induction l with
  | nil => simp [insertSorted]
  | cons y t ih =>
    simp only [insertSorted]
    by_cases hxy : chLe x.1.data y.1.data = true
    · rw [if_pos hxy]
      simp [List.mem_cons]
    · rw [if_neg hxy]
      simp only [List.mem_cons, ih]
      tauto

theorem insertSorted_pairwise (x : String × Entry) :
    ∀ (l : List (String × Entry)),
      List.Pairwise (fun a b => chLe a.1.data b.1.data = true) l →
      List.Pairwise (fun a b => chLe a.1.data b.1.data = true) (insertSorted x l) := by
  intro l
  induction l with
  | nil => intro _; simp [insertSorted]
  | cons y t ih =>
    intro h
    rw [List.pairwise_cons] at h
    obtain ⟨hy, ht⟩ := h
    simp only [insertSorted]
    by_cases hxy : chLe x.1.data y.1.data = true
    · rw [if_pos hxy]
      rw [List.pairwise_cons]
      constructor
      · intro a ha
        rcases List.mem_cons.1 ha with h1 | h1
        · subst h1; exact hxy
        · exact chLe_trans _ _ _ hxy (hy a h1)
      · rw [List.pairwise_cons]; exact ⟨hy, ht⟩
    · rw [if_neg hxy]
      rw [List.pairwise_cons]
      constructor
      · intro a ha
        rcases (insertSorted_mem x a t).1 ha with h1 | h1
        · rw [h1]
          rcases chLe_total x.1.data y.1.data with h2 | h2
          · exact absurd h2 hxy
          · exact h2
        · exact hy a h1
      · exact ih ht

theorem sortByName_pairwise (l : List (String × Entry)) :
    List.Pairwise (fun a b => chLe a.1.data b.1.data = true) (sortByName l) := by
  induction l with
  | nil => simp [sortByName]
  | cons x t ih => exact insertSorted_pairwise x _ ih

theorem sortByName_mem (a : String × Entry) (l : List (String × Entry)) :
    a ∈ sortByName l ↔ a ∈ l := by
  induction l with
  | nil => simp [sortByName]
  | cons x t ih =>
    show a ∈ insertSorted x (sortByName t) ↔ _
    rw [insertSorted_mem, ih]
    simp [List.mem_cons]

theorem childNames_mem (fs : FS) (p : List String) (name : String) (e : Entry) :
    (name, e) ∈ childNames fs p ↔ (p ++ [name], e) ∈ fs := by
  rw [childNames, List.mem_filterMap]
  constructor
  · rintro ⟨⟨q, e'⟩, hq, hsome⟩
    by_cases hc : q.dropLast = p ∧ q ≠ []
    · rw [if_pos hc] at hsome
      have h' := Option.some.inj hsome
      have h1 : q.getLastD "" = name := congrArg Prod.fst h'
      have h2 : e' = e := congrArg Prod.snd h' 
      obtain ⟨hd, hn⟩ := hc
      have hq2 : q = p ++ [name] := by
        have := List.dropLast_append_getLast hn
        rw [hd] at this
        rw [← this]
        congr 1
        rw [← h1]
        simp [List.getLastD_eq_getLast?, List.getLast?_eq_getLast _ hn]
      rw [← hq2, ← h2]
      exact hq
    · rw [if_neg hc] at hsome; cases hsome
  · intro hmem
    refine ⟨(p ++ [name], e), hmem, ?_⟩
    rw [if_pos ⟨List.dropLast_concat, by simp⟩]
    congr 1
    simp [List.getLastD_eq_getLast?, List.getLast?_concat]
theorem validatePath_error_eq (base : List String) (q : String) (e : MemError)
    (h : validatePath base q = Except.error e) : e = MemError.validationError := by
  rw [validatePath] at h
  split at h
  · split at h
    · cases h
    · exact (Except.error.inj h).symm
  · exact (Except.error.inj h).symm

theorem validatePath_bad (base : List String) (p : String)
    (hbad : isMemRooted p = false ∨
      isPre base (resolveFrom base (relSegs p)) = false) :
    validatePath base p = Except.error MemError.validationError := by
  rcases hbad with h | h
  · simp [validatePath, h]
  · simp [validatePath, h]

/-- Claim C1: for every operation and every input path that lacks the
"/memories" prefix or resolves outside the store root, the operation
fails with a validation error and the store is unchanged. -/
theorem c1_invalid_path_rejected_all_ops (base : List String) (fs : FS)
    (p q : String) (r : Option (Int × Int)) (text old new : String) (line : Int)
    (hbad : isMemRooted p = false ∨
      isPre base (resolveFrom base (relSegs p)) = false) :
    viewOp base fs p r = (fs, Except.error MemError.validationError) ∧
    createOp base fs p text = (fs, Except.error MemError.validationError) ∧
    strReplaceOp base fs p old new = (fs, Except.error MemError.validationError) ∧
    insertOp base fs p line text = (fs, Except.error MemError.validationError) ∧
    deleteOp base fs p = (fs, Except.error MemError.validationError) ∧
    renameOp base fs p q = (fs, Except.error MemError.validationError) ∧
    renameOp base fs q p = (fs, Except.error MemError.validationError) := by
  have hvp := validatePath_bad base p hbad
  refine ⟨?_, ?_, ?_, ?_, ?_, ?_, ?_⟩
  · rw [viewOp, hvp]
  · rw [createOp, hvp]
  · rw [strReplaceOp, hvp]
  · rw [insertOp, hvp]
  · rw [deleteOp, hvp]
  · rw [renameOp, hvp]
  · rw [renameOp]
    cases hq : validatePath base q with
    | error e => rw [validatePath_error_eq base q e hq]
    | ok segs => rw [hvp]

theorem c1_witness :
    (isMemRooted ("/etc/passwd") = false ∨
      isPre ["m"] (resolveFrom ["m"] (relSegs ("/etc/passwd"))) = false) ∧
    viewOp ["m"] [([], Entry.dir)] ("/etc/passwd") none =
      ([([], Entry.dir)], Except.error MemError.validationError) ∧
    deleteOp ["m"] [([], Entry.dir)] ("/memories/../../x") =
      ([([], Entry.dir)], Except.error MemError.validationError) := by
  refine ⟨Or.inl (by decide), ?_, ?_⟩
  · exact (c1_invalid_path_rejected_all_ops ["m"] [([], Entry.dir)] ("/etc/passwd")
      ("/memories/a") none ("x") ("a") ("b") 1 (Or.inl (by decide))).1
  · exact (c1_invalid_path_rejected_all_ops ["m"] [([], Entry.dir)] ("/memories/../../x")
      ("/memories/a") none ("x") ("a") ("b") 1 (Or.inr (by decide))).2.2.2.2.1
theorem splitOnSlash_no_slash : ∀ (l : List Char), '/' ∉ l → splitOnSlash l = [l] := by
  intro l
  induction l with
  | nil => intro _; rfl
  | cons c t ih =>
    intro h
    have hc : ¬ c = '/' := by
      intro he; exact h (by simp [he])
    simp only [splitOnSlash]
    rw [if_neg hc, ih (fun hm => h (by simp [hm]))]

/-- Claim C9 counterexample: the suffix ".." does not start with "/",
yet the path "/memories.." is rejected rather than accepted. -/
theorem c9_counterexample :
    ("..").data.head? ≠ some '/' ∧
    validatePath ["m"] ("/memories..") = Except.error MemError.validationError := by
  constructor
  · decide
  · rfl

/-- Claim C9 (amended): path validation accepts "/memories" followed by
any single normal name component `s` (no slash, not "", ".", ".."), even
without a "/" separator, resolving it to the entry named `s` directly
under the store root; the bare path "/memories" resolves to the root
itself.  (As stated the claim fails for traversal suffixes such as "..",
see the counterexample.) -/
theorem c9_prefix_quirk (base : List String) (s : String)
    (hne : s ≠ "") (hs : '/' ∉ s.data) (hdot : s ≠ ".") (hdd : s ≠ "..") :
    validatePath base ("/memories" ++ s) = Except.ok [s] ∧
    validatePath base ("/memories") = Except.ok [] := by
  constructor
  · have hmem : isMemRooted ("/memories" ++ s) = true := by
      rw [isMemRooted, String.data_append]
      exact isPre_append _ _
    have hdata : (("/memories" ++ s).data).drop 9 = s.data := by
      rw [String.data_append]
      have h9 : ("/memories").data.length = 9 := rfl
      rw [← h9, List.drop_left]
    have hdw : s.data.dropWhile (fun c => c == '/') = s.data := by
      cases hsd : s.data with
      | nil =>
        rfl
      | cons c t =>
        have hc : c ≠ '/' := by
          intro he; subst he; exact hs (by rw [hsd]; simp)
        rw [List.dropWhile_cons]
        rw [if_neg (by simp [hc])]
    have hrel : relSegs ("/memories" ++ s) = [s] := by
      rw [relSegs, hdata, hdw, splitOnSlash_no_slash s.data hs]
      simp
    have hres : resolveFrom base [s] = base ++ [s] := by
      simp [resolveFrom, resolveStep, hne, hdot, hdd]
    rw [validatePath, hrel, hres]
    rw [if_pos (by rw [hmem])]
    rw [if_pos (by rw [isPre_append])]
    rw [List.drop_left]
  · have hrel : relSegs ("/memories") = [""] := rfl
    have hres : resolveFrom base [""] = base := by
      simp [resolveFrom, resolveStep]
    rw [validatePath, hrel, hres]
    rw [if_pos (by decide)]
    rw [if_pos (by rw [isPre_self])]
    rw [List.drop_length]

theorem c9_witness :
    validatePath ["m"] ("/memories" ++ "foo") = Except.ok ["foo"] ∧
    validatePath ["m"] ("/memories") = Except.ok [] :=
  c9_prefix_quirk ["m"] ("foo") (by decide) (by decide) (by decide) (by decide)
theorem stringMk_data (s : String) : String.mk s.data = s := by
  obtain ⟨d⟩ := s
  rfl

/-- Claim C10: replacing the empty string succeeds exactly when the leaf
content is empty (the empty pattern then counts once), rewriting the
content to `new`; on nonempty content the empty pattern counts
`length + 1 ≥ 2` times and replace fails with the ambiguity error,
leaving the store unchanged. -/
theorem c10_replace_empty_old (base : List String) (fs : FS) (p new : String)
    (segs : List String) (c : String)
    (hv : validatePath base p = Except.ok segs)
    (hl : lookupFS fs segs = some (Entry.file c)) :
    (c = "" → strReplaceOp base fs p ("") new =
      (setContent fs segs new,
       Except.ok ("Successfully replaced string in " ++ p))) ∧
    (c ≠ "" → strReplaceOp base fs p ("") new =
      (fs, Except.error MemError.ambiguousMatchError)) := by
  constructor
  · intro hc
    subst hc
    simp only [strReplaceOp, hv, hl]
    rw [if_neg (by norm_num [pyCount]), if_neg (by norm_num [pyCount])]
    rw [show pyReplace [] new.data [] = new.data from rfl, stringMk_data]
  · intro hc
    have hd : c.data ≠ [] := by
      intro h
      apply hc
      obtain ⟨d⟩ := c
      cases h
      rfl
    have hcnt : pyCount ("").data c.data = c.data.length + 1 := rfl
    simp only [strReplaceOp, hv, hl]
    rw [if_neg (by rw [hcnt]; omega)]
    rw [if_pos (by
      rw [hcnt]
      have := List.length_pos.2 hd
      omega)]

/-- Claim C2 counterexample: "aa" occurs at two distinct positions in
"aaa" (the spec-side overlapping count is 2), yet replace succeeds and
rewrites the content, because the source counts non-overlapping
occurrences and finds exactly one. -/
theorem c2_counterexample :
    specOcc ("aa").data ("aaa").data = 2 ∧
    strReplaceOp ["m"] [([], Entry.dir), (["d.txt"], Entry.file ("aaa"))]
        ("/memories/d.txt") ("aa") ("b") =
      ([([], Entry.dir), (["d.txt"], Entry.file ("ba"))],
       Except.ok ("Successfully replaced string in /memories/d.txt")) := by
  exact ⟨by decide, rfl⟩

/-- Claim C2 (amended): with occurrences counted non-overlapping from
the left (Python `str.count`), replace fails with the ambiguity error on
count 0 or count ≥ 2, leaving the store unchanged, and on count exactly
1 succeeds, the new content being the old content with that occurrence
of `old` substituted by `new`. -/
theorem c2_replace_unique_nonoverlapping (base : List String) (fs : FS)
    (p old new : String) (segs : List String) (c : String)
    (hv : validatePath base p = Except.ok segs)
    (hl : lookupFS fs segs = some (Entry.file c)) :
    (pyCount old.data c.data = 0 →
      strReplaceOp base fs p old new = (fs, Except.error MemError.ambiguousMatchError)) ∧
    (pyCount old.data c.data > 1 →
      strReplaceOp base fs p old new = (fs, Except.error MemError.ambiguousMatchError)) ∧
    (pyCount old.data c.data = 1 →
      ∃ a b, c.data = a ++ old.data ++ b ∧
        strReplaceOp base fs p old new =
          (setContent fs segs (String.mk (a ++ new.data ++ b)),
           Except.ok ("Successfully replaced string in " ++ p))) := by
  refine ⟨?_, ?_, ?_⟩
  · intro h
    simp only [strReplaceOp, hv, hl]
    rw [if_pos h]
  · intro h
    simp only [strReplaceOp, hv, hl]
    rw [if_neg (by omega), if_pos h]
  · intro h
    obtain ⟨a, b, h1, h2⟩ := pyCount_one_repl old.data new.data c.data h
    refine ⟨a, b, h1, ?_⟩
    simp only [strReplaceOp, hv, hl]
    rw [if_neg (by omega), if_neg (by omega), h2]

theorem c2_witness :
    pyCount ("a").data ("xay").data = 1 ∧
    (∃ a b, ("xay").data = a ++ ("a").data ++ b ∧
      strReplaceOp ["m"] [([], Entry.dir), (["f"], Entry.file ("xay"))]
          ("/memories/f") ("a") ("b") =
        (setContent [([], Entry.dir), (["f"], Entry.file ("xay"))] ["f"]
          (String.mk (a ++ ("b").data ++ b)),
         Except.ok ("Successfully replaced string in " ++ "/memories/f"))) := by
  refine ⟨by decide, ?_⟩
  exact (c2_replace_unique_nonoverlapping ["m"]
    [([], Entry.dir), (["f"], Entry.file ("xay"))] ("/memories/f") ("a") ("b")
    ["f"] ("xay") rfl rfl).2.2 (by decide)

theorem c10_witness :
    strReplaceOp ["m"] [([], Entry.dir), (["e"], Entry.file (""))]
        ("/memories/e") ("") ("new") =
      (setContent [([], Entry.dir), (["e"], Entry.file (""))] ["e"] ("new"),
       Except.ok ("Successfully replaced string in " ++ "/memories/e")) ∧
    strReplaceOp ["m"] [([], Entry.dir), (["e"], Entry.file ("ab"))]
        ("/memories/e") ("") ("new") =
      ([([], Entry.dir), (["e"], Entry.file ("ab"))],
       Except.error MemError.ambiguousMatchError) := by
  constructor
  · exact (c10_replace_empty_old ["m"] [([], Entry.dir), (["e"], Entry.file (""))]
      ("/memories/e") ("new") ["e"] ("") rfl rfl).1 rfl
  · exact (c10_replace_empty_old ["m"] [([], Entry.dir), (["e"], Entry.file ("ab"))]
      ("/memories/e") ("new") ["e"] ("ab") rfl rfl).2 (by decide)
/-- Claim C6: whenever an operation reports a precondition failure (any
error other than an underlying-storage `ioFailure`), the returned store
equals the store before the call; in particular create on an existing
path fails with the conflict error and a subsequent view is unchanged. -/
theorem c6_precondition_failure_preserves_state (base : List String) (fs : FS)
    (p q : String) (r : Option (Int × Int)) (text old new : String) (line : Int) :
    (∀ fs2 e, viewOp base fs p r = (fs2, Except.error e) →
      e ≠ MemError.ioFailure → fs2 = fs) ∧
    (∀ fs2 e, createOp base fs p text = (fs2, Except.error e) →
      e ≠ MemError.ioFailure → fs2 = fs) ∧
    (∀ fs2 e, strReplaceOp base fs p old new = (fs2, Except.error e) →
      e ≠ MemError.ioFailure → fs2 = fs) ∧
    (∀ fs2 e, insertOp base fs p line text = (fs2, Except.error e) →
      e ≠ MemError.ioFailure → fs2 = fs) ∧
    (∀ fs2 e, deleteOp base fs p = (fs2, Except.error e) →
      e ≠ MemError.ioFailure → fs2 = fs) ∧
    (∀ fs2 e, renameOp base fs p q = (fs2, Except.error e) →
      e ≠ MemError.ioFailure → fs2 = fs) ∧
    (∀ segs ent, validatePath base p = Except.ok segs → lookupFS fs segs = some ent →
      createOp base fs p text = (fs, Except.error MemError.conflictError) ∧
      viewOp base (createOp base fs p text).1 p none = viewOp base fs p none) := by
  refine ⟨?_, ?_, ?_, ?_, ?_, ?_, ?_⟩
  · intro fs2 e h hne
    unfold viewOp at h
    repeat' split at h
    all_goals rw [Prod.mk.injEq] at h
    all_goals first
      | exact h.1.symm
      | exact absurd (Except.error.inj h.2).symm hne
      | exact absurd h.2 (by simp)
  · intro fs2 e h hne
    unfold createOp at h
    repeat' split at h
    all_goals rw [Prod.mk.injEq] at h
    all_goals first
      | exact h.1.symm
      | exact absurd (Except.error.inj h.2).symm hne
      | exact absurd h.2 (by simp)
  · intro fs2 e h hne
    unfold strReplaceOp at h
    repeat' split at h
    all_goals rw [Prod.mk.injEq] at h
    all_goals first
      | exact h.1.symm
      | exact absurd (Except.error.inj h.2).symm hne
      | exact absurd h.2 (by simp)
  · intro fs2 e h hne
    unfold insertOp at h
    repeat' split at h
    all_goals rw [Prod.mk.injEq] at h
    all_goals first
      | exact h.1.symm
      | exact absurd (Except.error.inj h.2).symm hne
      | exact absurd h.2 (by simp)
  · intro fs2 e h hne
    unfold deleteOp at h
    repeat' split at h
    all_goals rw [Prod.mk.injEq] at h
    all_goals first
      | exact h.1.symm
      | exact absurd (Except.error.inj h.2).symm hne
      | exact absurd h.2 (by simp)
  · intro fs2 e h hne
    unfold renameOp at h
    repeat' split at h
    all_goals rw [Prod.mk.injEq] at h
    all_goals first
      | exact h.1.symm
      | exact absurd (Except.error.inj h.2).symm hne
      | exact absurd h.2 (by simp)
  · intro segs ent hv hl
    have hcr : createOp base fs p text = (fs, Except.error MemError.conflictError) := by
      simp only [createOp, hv, hl]
    exact ⟨hcr, by rw [hcr]⟩

theorem c6_witness :
    createOp ["m"] [([], Entry.dir), (["a.txt"], Entry.file ("x"))]
        ("/memories/a.txt") ("y") =
      ([([], Entry.dir), (["a.txt"], Entry.file ("x"))],
       Except.error MemError.conflictError) ∧
    viewOp ["m"] (createOp ["m"] [([], Entry.dir), (["a.txt"], Entry.file ("x"))]
        ("/memories/a.txt") ("y")).1 ("/memories/a.txt") none =
      viewOp ["m"] [([], Entry.dir), (["a.txt"], Entry.file ("x"))]
        ("/memories/a.txt") none :=
  (c6_precondition_failure_preserves_state ["m"]
    [([], Entry.dir), (["a.txt"], Entry.file ("x"))] ("/memories/a.txt")
    ("/memories/b") none ("y") ("o") ("n") 1).2.2.2.2.2.2
    ["a.txt"] (Entry.file ("x")) rfl rfl

/-- Claim C5 counterexample: `create` stores "a\rb" verbatim, but `view`
returns "a\nb" (the carriage return is a `splitlines` boundary), which
is not the created text modulo a trailing-newline normalization. -/
theorem c5_counterexample :
    (createOp ["m"] [([], Entry.dir)] ("/memories/a.txt") ("a\rb")).2 =
      Except.ok ("Successfully created /memories/a.txt") ∧
    viewOp ["m"] (createOp ["m"] [([], Entry.dir)] ("/memories/a.txt") ("a\rb")).1
        ("/memories/a.txt") none =
      ((createOp ["m"] [([], Entry.dir)] ("/memories/a.txt") ("a\rb")).1,
       Except.ok ("a\nb")) ∧
    ("a\nb" : String) ≠ ("a\rb" : String) := by
  refine ⟨rfl, rfl, by decide⟩

/-- Claim C5 (amended): when the created text contains no line-boundary
characters other than "\n", a subsequent full view returns exactly the
text with a single trailing newline removed when present.  (As stated,
over all text values, the claim fails: carriage returns are rewritten to
newlines by view, see the counterexample.) -/
theorem c5_roundtrip_newline_only (base : List String) (fs : FS) (p text : String)
    (fs2 : FS) (msg : String)
    (hcr : createOp base fs p text = (fs2, Except.ok msg))
    (hnl : onlyNL text.data = true) :
    viewOp base fs2 p none =
      (fs2, Except.ok (String.mk
        (if text.data.getLast? = some '\n' then text.data.dropLast
         else text.data))) := by
  cases hv : validatePath base p with
  | error e =>
    simp only [createOp, hv] at hcr
    rw [Prod.mk.injEq] at hcr
    exact absurd hcr.2 (by simp)
  | ok segs =>
    cases hl : lookupFS fs segs with
    | some ent =>
      simp only [createOp, hv, hl] at hcr
      rw [Prod.mk.injEq] at hcr
      exact absurd hcr.2 (by simp)
    | none =>
      cases hm : mkdirs fs segs.dropLast with
      | none =>
        simp only [createOp, hv, hl, hm] at hcr
        rw [Prod.mk.injEq] at hcr
        exact absurd hcr.2 (by simp)
      | some fs1 =>
        simp only [createOp, hv, hl, hm] at hcr
        rw [Prod.mk.injEq] at hcr
        obtain ⟨h1, h2⟩ := hcr
        subst h1
        have hlk : lookupFS ((segs, Entry.file text) :: fs1) segs =
            some (Entry.file text) := by
          rw [lookupFS_cons, if_pos rfl]
        simp only [viewOp, hv, hlk]
        rw [Prod.mk.injEq]
        refine ⟨rfl, ?_⟩
        have hr : renderFile text none = String.mk (joinNL (pySplitlines text.data)) := rfl
        rw [hr, joinNL_pySplitlines text.data.length text.data le_rfl hnl]

theorem c5_witness :
    viewOp ["m"] [(["w.txt"], Entry.file ("l1\nl2\n")), ([], Entry.dir)]
        ("/memories/w.txt") none =
      ([(["w.txt"], Entry.file ("l1\nl2\n")), ([], Entry.dir)],
       Except.ok (String.mk (if ("l1\nl2\n").data.getLast? = some '\n'
         then ("l1\nl2\n").data.dropLast else ("l1\nl2\n").data))) :=
  c5_roundtrip_newline_only ["m"] [([], Entry.dir)] ("/memories/w.txt")
    ("l1\nl2\n") [(["w.txt"], Entry.file ("l1\nl2\n")), ([], Entry.dir)]
    ("Successfully created /memories/w.txt") rfl (by decide)
/-- Claim C3 counterexample: inserting "xyz" at position
`line_count + 1 = 2` of a document whose content "abc" lacks a trailing
newline splices the text onto the last line: the result "abcxyz\n" has
"abcxyz" as its only line, so the inserted text did not become the new
last line. -/
theorem c3_counterexample :
    insertOp ["m"] [([], Entry.dir), (["n.txt"], Entry.file ("abc"))]
        ("/memories/n.txt") 2 ("xyz") =
      ([([], Entry.dir), (["n.txt"], Entry.file ("abcxyz\n"))],
       Except.ok ("Successfully inserted line in /memories/n.txt")) ∧
    (pySplitlinesK ("abc").data).length = 1 ∧
    pySplitlines ("abcxyz\n").data ≠
      pySplitlines ("abc").data ++ [("xyz").data] := by
  refine ⟨rfl, rfl, by decide⟩

/-- Claim C3 (amended): for an existing leaf with keepends line count
`k`: insertion at `n < 1` or `n > k + 1` fails with the range error and
leaves the store unchanged; the inserted text always receives a trailing
newline when it lacks one; for newline-free text, insertion at `n = 1`
prepends the text as the new first line, and insertion at `n = k + 1`
appends the normalized text at the end of the content — the text becomes
the new last line provided the prior content is empty or ends with a
newline (without that proviso the appended text merges into the old last
line, see the counterexample). -/
theorem c3_insert_semantics (base : List String) (fs : FS) (p text : String)
    (segs : List String) (c : String)
    (hv : validatePath base p = Except.ok segs)
    (hl : lookupFS fs segs = some (Entry.file c)) :
    (∀ n : Int, (n < 1 ∨ n > ((pySplitlinesK c.data).length : Int) + 1) →
      insertOp base fs p n text = (fs, Except.error MemError.rangeError)) ∧
    (noBreak text.data = true →
      insertOp base fs p 1 text =
        (setContent fs segs (String.mk (text.data ++ '\n' :: c.data)),
         Except.ok ("Successfully inserted line in " ++ p)) ∧
      pySplitlines (text.data ++ '\n' :: c.data) =
        text.data :: pySplitlines c.data) ∧
    (noBreak text.data = true → (c.data = [] ∨ c.data.getLast? = some '\n') →
      insertOp base fs p (((pySplitlinesK c.data).length : Int) + 1) text =
        (setContent fs segs (String.mk (c.data ++ text.data ++ ['\n'])),
         Except.ok ("Successfully inserted line in " ++ p)) ∧
      pySplitlines (c.data ++ text.data ++ ['\n']) =
        pySplitlines c.data ++ [text.data]) := by
  have hnbt : ∀ (hnb : noBreak text.data = true),
      normalizeInsertText text.data = text.data ++ ['\n'] := by
    intro hnb
    rw [normalizeInsertText, if_neg ?_]
    intro hlast
    have hmem := List.mem_of_mem_getLast? hlast
    have := (noBreak_iff text.data).1 hnb '\n' hmem
    simp [isLineBreak] at this
  refine ⟨?_, ?_, ?_⟩
  · intro n hn
    simp only [insertOp, hv, hl]
    rw [if_pos (by omega)]
  · intro hnb
    constructor
    · simp only [insertOp, hv, hl]
      rw [if_neg (by
        push_neg
        constructor
        · omega
        · have := (pySplitlinesK c.data).length
          omega)]
      rw [hnbt hnb]
      rw [Prod.mk.injEq]
      constructor
      · congr 1
        show String.mk (((pySplitlinesK c.data).take (1 - 1 : Int).toNat).flatten ++
          ((text.data ++ ['\n']) ++ ((pySplitlinesK c.data).drop (1 - 1 : Int).toNat).flatten)) = _
        norm_num
        rw [flatten_pySplitlinesK]
      · rfl
    · exact ps_line text.data c.data ((noBreak_iff text.data).1 hnb)
  · intro hnb hend
    constructor
    · simp only [insertOp, hv, hl]
      rw [if_neg (by omega)]
      rw [hnbt hnb]
      rw [Prod.mk.injEq]
      constructor
      · congr 1
        have htn : (((pySplitlinesK c.data).length : Int) + 1 - 1).toNat =
            (pySplitlinesK c.data).length := by omega
        rw [htn, List.take_length, List.drop_length]
        rw [flatten_pySplitlinesK]
        simp [List.append_assoc]
      · rfl
    · rw [List.append_assoc]
      rw [pySplitlines, pySplitlinesK_append c.data (text.data ++ ['\n']) hend]
      rw [show text.data ++ ['\n'] = text.data ++ '\n' :: [] from rfl]
      rw [pySplitlinesK_line text.data [] ((noBreak_iff text.data).1 hnb)]
      rw [List.map_append]
      rw [pySplitlines]
      congr 1
      show [stripEol ((text.data ++ ['\n']))] = [text.data]
      rw [stripEol_concat_nl text.data ((noBreak_iff text.data).1 hnb)]
theorem c3_witness :
    insertOp ["m"] [([], Entry.dir), (["w"], Entry.file ("l1\n"))]
        ("/memories/w") 0 ("xyz") =
      ([([], Entry.dir), (["w"], Entry.file ("l1\n"))],
       Except.error MemError.rangeError) ∧
    insertOp ["m"] [([], Entry.dir), (["w"], Entry.file ("l1\n"))]
        ("/memories/w") 1 ("xyz") =
      (setContent [([], Entry.dir), (["w"], Entry.file ("l1\n"))] ["w"]
        (String.mk (("xyz").data ++ '\n' :: ("l1\n").data)),
       Except.ok ("Successfully inserted line in " ++ "/memories/w")) ∧
    pySplitlines (("l1\n").data ++ ("xyz").data ++ ['\n']) =
      pySplitlines ("l1\n").data ++ [("xyz").data] := by
  refine ⟨?_, ?_, ?_⟩
  · exact (c3_insert_semantics ["m"] [([], Entry.dir), (["w"], Entry.file ("l1\n"))]
      ("/memories/w") ("xyz") ["w"] ("l1\n") rfl rfl).1 0 (by decide)
  · exact ((c3_insert_semantics ["m"] [([], Entry.dir), (["w"], Entry.file ("l1\n"))]
      ("/memories/w") ("xyz") ["w"] ("l1\n") rfl rfl).2.1 (by decide)).1
  · exact ((c3_insert_semantics ["m"] [([], Entry.dir), (["w"], Entry.file ("l1\n"))]
      ("/memories/w") ("xyz") ["w"] ("l1\n") rfl rfl).2.2 (by decide) (by decide)).2
/-- Claim C4 counterexample: the directory view output carries a
"Directory: path" header line and a "- " bullet before each name, so it
is not exactly the newline-joined list of child names. -/
theorem c4_counterexample :
    viewOp ["m"] [([], Entry.dir), (["a"], Entry.dir), (["b.txt"], Entry.file ("x"))]
        ("/memories") none =
      ([([], Entry.dir), (["a"], Entry.dir), (["b.txt"], Entry.file ("x"))],
       Except.ok ("Directory: /memories\n- a/\n- b.txt")) ∧
    ("Directory: /memories\n- a/\n- b.txt" : String) ≠ ("a/\nb.txt" : String) := by
  exact ⟨rfl, by decide⟩

/-- Claim C4 (amended): view on a directory returns a "Directory: path"
header followed by one "- "-prefixed item per line; the items are the
names of exactly the immediate non-dot children (directories suffixed
with "/"), in lexicographically sorted order of their names; nothing is
recursed into. -/
theorem c4_directory_listing (base : List String) (fs : FS) (p : String)
    (r : Option (Int × Int)) (segs : List String)
    (hv : validatePath base p = Except.ok segs)
    (hd : lookupFS fs segs = some Entry.dir) :
    viewOp base fs p r = (fs, Except.ok (formatListing p (dirListing fs segs))) ∧
    List.Pairwise (fun a b => chLe a.1.data b.1.data = true) (sortedKids fs segs) ∧
    (∀ name e, (name, e) ∈ sortedKids fs segs ↔
      ((segs ++ [name], e) ∈ fs ∧ startsDot name = false)) := by
  refine ⟨?_, ?_, ?_⟩
  · simp only [viewOp, hv, hd]
  · exact (sortByName_pairwise (childNames fs segs)).filter _
  · intro name e
    rw [sortedKids, List.mem_filter, sortByName_mem, childNames_mem]
    rw [Bool.not_eq_true']

theorem c4_witness :
    viewOp ["m"] [([], Entry.dir), (["a"], Entry.dir), (["b.txt"], Entry.file ("x"))]
        ("/memories") none =
      ([([], Entry.dir), (["a"], Entry.dir), (["b.txt"], Entry.file ("x"))],
       Except.ok (formatListing ("/memories")
         (dirListing [([], Entry.dir), (["a"], Entry.dir), (["b.txt"], Entry.file ("x"))] []))) ∧
    (("a", Entry.dir) ∈
        sortedKids [([], Entry.dir), (["a"], Entry.dir), (["b.txt"], Entry.file ("x"))] [] ↔
      (([] ++ ["a"], Entry.dir) ∈
          ([([], Entry.dir), (["a"], Entry.dir), (["b.txt"], Entry.file ("x"))] : FS) ∧
        startsDot ("a") = false)) := by
  constructor
  · exact (c4_directory_listing ["m"]
      [([], Entry.dir), (["a"], Entry.dir), (["b.txt"], Entry.file ("x"))]
      ("/memories") none [] rfl rfl).1
  · exact (c4_directory_listing ["m"]
      [([], Entry.dir), (["a"], Entry.dir), (["b.txt"], Entry.file ("x"))]
      ("/memories") none [] rfl rfl).2.2 ("a") Entry.dir
/-- Claim C7: rename fails with the not-found error when the source is
absent and with the conflict error when the destination exists; on
success (leaf case), viewing the new path afterwards returns exactly
what viewing the old path returned before, and viewing the old path
fails with the not-found error. -/
theorem c7_rename_semantics (base : List String) (fs : FS) (oldP newP : String)
    (o n : List String)
    (hvo : validatePath base oldP = Except.ok o)
    (hvn : validatePath base newP = Except.ok n) :
    (lookupFS fs o = none →
      renameOp base fs oldP newP = (fs, Except.error MemError.notFoundError)) ∧
    (∀ e e2, lookupFS fs o = some e → lookupFS fs n = some e2 →
      renameOp base fs oldP newP = (fs, Except.error MemError.conflictError)) ∧
    (∀ c fs1, lookupFS fs o = some (Entry.file c) → lookupFS fs n = none →
      mkdirs fs n.dropLast = some fs1 →
      isPre o n = false → isPre n o = false → n ≠ [] →
      viewOp base fs oldP none = (fs, Except.ok (renderFile c none)) ∧
      renameOp base fs oldP newP =
        (moveTree o n fs1,
         Except.ok ("Successfully renamed " ++ oldP ++ " to " ++ newP)) ∧
      viewOp base (moveTree o n fs1) newP none =
        (moveTree o n fs1, Except.ok (renderFile c none)) ∧
      viewOp base (moveTree o n fs1) oldP none =
        (moveTree o n fs1, Except.error MemError.notFoundError)) := by
  refine ⟨?_, ?_, ?_⟩
  · intro h
    simp only [renameOp, hvo, hvn, h]
  · intro e e2 h1 h2
    simp only [renameOp, hvo, hvn, h1, h2]
  · intro c fs1 hlo hln hm hon hno hne
    have hlf1 : lookupFS fs1 o = some (Entry.file c) := by
      rw [mkdirs] at hm
      exact mkdirsAux_pres_some _ fs fs1 o _ hm hlo
    have hnf1 : lookupFS fs1 n = none := by
      rw [mkdirs] at hm
      exact mkdirsAux_pres_none _ fs fs1 n hm hln (inits_ne_self n hne)
    have h2 : lookupFS (moveTree o n fs1) n = some (Entry.file c) :=
      lookup_move_new o n _ fs1 hnf1 hlf1
    have h3 : lookupFS (moveTree o n fs1) o = none :=
      lookup_move_old o n hno fs1
    refine ⟨?_, ?_, ?_, ?_⟩
    · simp only [viewOp, hvo, hlo]
    · simp only [renameOp, hvo, hvn, hlo, hln, hm]
      rw [if_neg (by simp [hon])]
    · simp only [viewOp, hvn, h2]
    · simp only [viewOp, hvo, h3]

theorem c7_witness :
    viewOp ["m"] [([], Entry.dir), (["a.txt"], Entry.file ("x"))]
        ("/memories/a.txt") none =
      ([([], Entry.dir), (["a.txt"], Entry.file ("x"))],
       Except.ok (renderFile ("x") none)) ∧
    renameOp ["m"] [([], Entry.dir), (["a.txt"], Entry.file ("x"))]
        ("/memories/a.txt") ("/memories/b.txt") =
      (moveTree ["a.txt"] ["b.txt"] [([], Entry.dir), (["a.txt"], Entry.file ("x"))],
       Except.ok ("Successfully renamed " ++ "/memories/a.txt" ++ " to " ++ "/memories/b.txt")) ∧
    viewOp ["m"] (moveTree ["a.txt"] ["b.txt"] [([], Entry.dir), (["a.txt"], Entry.file ("x"))])
        ("/memories/b.txt") none =
      (moveTree ["a.txt"] ["b.txt"] [([], Entry.dir), (["a.txt"], Entry.file ("x"))],
       Except.ok (renderFile ("x") none)) ∧
    viewOp ["m"] (moveTree ["a.txt"] ["b.txt"] [([], Entry.dir), (["a.txt"], Entry.file ("x"))])
        ("/memories/a.txt") none =
      (moveTree ["a.txt"] ["b.txt"] [([], Entry.dir), (["a.txt"], Entry.file ("x"))],
       Except.error MemError.notFoundError) :=
  (c7_rename_semantics ["m"] [([], Entry.dir), (["a.txt"], Entry.file ("x"))]
    ("/memories/a.txt") ("/memories/b.txt") ["a.txt"] ["b.txt"] rfl rfl).2.2
    ("x") [([], Entry.dir), (["a.txt"], Entry.file ("x"))]
    rfl rfl rfl (by decide) (by decide) (by decide)

/-- Claim C8 counterexample: after `delete("/memories")` removes the
root itself, clear-all still reports success but does not recreate the
root, so "on success the store root exists" fails. -/
theorem c8_counterexample :
    deleteOp ["m"] [([], Entry.dir)] ("/memories") =
      ([], Except.ok ("Successfully deleted directory /memories")) ∧
    clearAllMemory [] false = ([], "All memories have been cleared") ∧
    lookupFS (clearAllMemory [] false).1 [] = none := by
  exact ⟨rfl, rfl, rfl⟩

/-- Claim C8 (amended): clear-all is total and always returns one of the
two caller-visible texts (success, or the caught-failure message) rather
than raising; when the root directory exists and the underlying removal
succeeds, the store is reset to the empty root; when the removal raises,
the failure text is returned; but when the root is absent the success
message is returned without recreating the root. -/
theorem c8_clear_all_total (fs : FS) (rmFail : Bool) :
    ((clearAllMemory fs rmFail).2 = "All memories have been cleared" ∨
     (clearAllMemory fs rmFail).2 = "Error clearing memories") ∧
    (lookupFS fs [] = some Entry.dir → rmFail = false →
      clearAllMemory fs rmFail = ([([], Entry.dir)], "All memories have been cleared")) ∧
    (lookupFS fs [] = some Entry.dir → rmFail = true →
      clearAllMemory fs rmFail = (fs, "Error clearing memories")) ∧
    (lookupFS fs [] = none →
      clearAllMemory fs rmFail = (fs, "All memories have been cleared") ∧
      lookupFS (clearAllMemory fs rmFail).1 [] = none) := by
  refine ⟨?_, ?_, ?_, ?_⟩
  · cases hr : lookupFS fs [] with
    | none => left; simp only [clearAllMemory, hr]
    | some ent =>
      cases ent with
      | dir =>
        cases rmFail with
        | true => right; simp [clearAllMemory, hr]
        | false => left; simp [clearAllMemory, hr]
      | file c => right; simp only [clearAllMemory, hr]
  · intro hr hf
    subst hf
    simp [clearAllMemory, hr]
  · intro hr hf
    subst hf
    simp [clearAllMemory, hr]
  · intro hr
    have h1 : clearAllMemory fs rmFail = (fs, "All memories have been cleared") := by
      simp only [clearAllMemory, hr]
    exact ⟨h1, by rw [h1]; exact hr⟩

theorem c8_witness :
    clearAllMemory [([], Entry.dir), (["a"], Entry.file ("x"))] false =
      ([([], Entry.dir)], "All memories have been cleared") :=
  (c8_clear_all_total [([], Entry.dir), (["a"], Entry.file ("x"))] false).2.1 rfl rfl
